import Mathlib

/-!
Verification of the category/link data model of the InternetGuzeldir static
site builder (`rebuild.py`, `tweeter.py`).

Strings are modelled as `List Char`.  Python's `str.split(sep)`,
`str.strip()`, `str.count(sep)` and `" > ".join(...)` are embedded as
executable functions below.  The category separator is `'>'` (forced by the
doctests of `get_category_parts` / `get_parent_category_id`: splitting
`"a > b > c"` yields `['a', 'b', 'c']` and its parent is `'a > b'`).
-/

abbrev Str := List Char

/-- Python `str.lstrip()`: drop leading whitespace. -/
def lstrip (s : Str) : Str := s.dropWhile (fun c => c.isWhitespace)

/-- Python `str.rstrip()`: drop trailing whitespace. -/
def rstrip (s : Str) : Str := (lstrip s.reverse).reverse

/-- Python `str.strip()`: drop leading and trailing whitespace. -/
def pstrip (s : Str) : Str := rstrip (lstrip s)

/-- Python `s.split(c)` for a one-character separator `c`: keeps empty
segments, never returns the empty list. -/
def splitOnChar (c : Char) : Str → List Str
  | [] => [[]]
  | x :: xs =>
    match splitOnChar c xs with
    | [] => [[]]
    | y :: ys => if x = c then [] :: y :: ys else (x :: y) :: ys

/-- Python `sep.join(parts)`. -/
def joinWith (sep : Str) : List Str → Str
  | [] => []
  | [x] => x
  | x :: y :: xs => x ++ sep ++ joinWith sep (y :: xs)

/-- The category separator, `ENV["SPREADSHEET_CATEGORY_SEPARATOR"]`. -/
def SEPARATOR : Char := '>'

/-- The padded separator `f" {SEPARATOR} "` used when re-joining parent keys. -/
def sepJoin : Str := [' ', '>', ' ']

/-- `rebuild.get_category_parts`: split on the separator, strip each part,
drop empty parts. -/
def get_category_parts (category_id : Str) : List Str :=
  ((splitOnChar SEPARATOR category_id).map pstrip).filter (fun p => p ≠ [])

/-- Modelled from the spec: the third-party `slugify` library is not part of
the repository sources.  Per the spec it lowercases, keeps alphanumeric runs
and joins them with hyphens. -/
def slugify (s : Str) : Str :=
  let mapped := s.map (fun c => if c.isAlphanum then c.toLower else '-')
  joinWith ['-'] ((splitOnChar '-' mapped).filter (fun g => g ≠ []))

/-- `rebuild.get_category_path`: `"/".join(map(slugify, parts)) + "/"`. -/
def get_category_path (category_id : Str) : Str :=
  joinWith ['/'] ((get_category_parts category_id).map slugify) ++ ['/']

/-- `rebuild.get_category_depth`: `category_id.count(separator)` — the number
of separator occurrences in the raw, untrimmed string. -/
def get_category_depth (category_id : Str) : Nat :=
  category_id.count SEPARATOR

/-- `rebuild.get_category_root_path`: `"../" * (depth + 1)`. -/
def get_category_root_path (category_id : Str) : Str :=
  (List.replicate (get_category_depth category_id + 1) ['.', '.', '/']).flatten

/-- `rebuild.get_parent_category_id`: join all parts but the last with
`" > "`; `None` when there are at most one part. -/
def get_parent_category_id (category_id : Str) : Option Str :=
  let parts := get_category_parts category_id
  if parts.length > 1 then some (joinWith sepJoin parts.dropLast) else none

/-! Basic lemmas about the string primitives. -/

theorem splitOnChar_ne_nil (c : Char) (s : Str) : splitOnChar c s ≠ [] := by
  cases s with
  | nil => simp [splitOnChar]
  | cons x xs =>
    simp only [splitOnChar]
    cases h : splitOnChar c xs with
    | nil => simp
    | cons y ys =>
      by_cases hx : x = c <;> simp [hx]

theorem splitOnChar_cons_sep (c : Char) (s : Str) :
    splitOnChar c (c :: s) = [] :: splitOnChar c s := by
  simp only [splitOnChar]
  cases h : splitOnChar c s with
  | nil => exact absurd h (splitOnChar_ne_nil c s)
  | cons y ys => simp

theorem splitOnChar_cons_ne {c x : Char} (hx : x ≠ c) (s : Str) {y : Str}
    {ys : List Str} (h : splitOnChar c s = y :: ys) :
    splitOnChar c (x :: s) = (x :: y) :: ys := by
  simp only [splitOnChar, h]
  simp [hx]

theorem mem_splitOnChar_not_mem (c : Char) (s : Str) :
    ∀ seg ∈ splitOnChar c s, c ∉ seg := by
  induction s with
  | nil => simp [splitOnChar]
  | cons x xs ih =>
    intro seg hseg
    simp only [splitOnChar] at hseg
    cases h : splitOnChar c xs with
    | nil => exact absurd h (splitOnChar_ne_nil c xs)
    | cons y ys =>
      rw [h] at hseg
      by_cases hx : x = c
      · simp [hx] at hseg
        rcases hseg with h1 | h1 | h1
        · simp [h1]
        · exact h1 ▸ ih y (h ▸ List.mem_cons_self y ys)
        · exact ih seg (h ▸ List.mem_cons_of_mem y h1)
      · simp [hx] at hseg
        rcases hseg with h1 | h1
        · subst h1
          intro hm
          rcases List.mem_cons.mp hm with h2 | h2
          · exact hx h2.symm
          · exact ih y (h ▸ List.mem_cons_self y ys) h2
        · exact ih seg (h ▸ List.mem_cons_of_mem y h1)

theorem splitOnChar_of_not_mem {c : Char} {s : Str} (h : c ∉ s) :
    splitOnChar c s = [s] := by
  induction s with
  | nil => simp [splitOnChar]
  | cons x xs ih =>
    have hx : x ≠ c := fun he => h (he ▸ List.mem_cons_self x xs)
    have hxs : c ∉ xs := fun hm => h (List.mem_cons_of_mem x hm)
    exact splitOnChar_cons_ne hx xs (ih hxs)

theorem splitOnChar_append_sep {c : Char} {a : Str} (ha : c ∉ a) (s : Str) :
    splitOnChar c (a ++ c :: s) = a :: splitOnChar c s := by
  induction a with
  | nil => simpa using splitOnChar_cons_sep c s
  | cons x xs ih =>
    have hx : x ≠ c := fun he => ha (he ▸ List.mem_cons_self x xs)
    have hxs : c ∉ xs := fun hm => ha (List.mem_cons_of_mem x hm)
    simpa using splitOnChar_cons_ne hx (xs ++ c :: s) (ih hxs)

theorem length_splitOnChar (c : Char) (s : Str) :
    (splitOnChar c s).length = s.count c + 1 := by
  induction s with
  | nil => simp [splitOnChar]
  | cons x xs ih =>
    simp only [splitOnChar]
    cases h : splitOnChar c xs with
    | nil => exact absurd h (splitOnChar_ne_nil c xs)
    | cons y ys =>
      rw [h] at ih
      by_cases hx : x = c
      · subst hx
        simp [List.count_cons, ih]
      · simp only [if_neg hx]
        simp only [List.count_cons, List.length_cons] at ih ⊢
        simp [hx]
        omega

/-! Lemmas about stripping whitespace. -/

theorem lstrip_cons (x : Char) (s : Str) :
    lstrip (x :: s) = if x.isWhitespace then lstrip s else x :: s := by
  simp [lstrip, List.dropWhile_cons]

theorem lstrip_length_le (s : Str) : (lstrip s).length ≤ s.length :=
  (List.dropWhile_sublist _).length_le

theorem lstrip_append (a b : Str) :
    lstrip (a ++ b) = if lstrip a = [] then lstrip b else lstrip a ++ b := by
  induction a with
  | nil => simp [lstrip]
  | cons x xs ih =>
    by_cases hx : x.isWhitespace
    · simp only [List.cons_append, lstrip_cons, hx, if_pos, ih]
    · simp [lstrip_cons, hx]

theorem lstrip_idem (s : Str) : lstrip (lstrip s) = lstrip s := by
  induction s with
  | nil => rfl
  | cons x xs ih =>
    by_cases hx : x.isWhitespace
    · simp [lstrip_cons, hx, ih]
    · simp [lstrip_cons, hx]

theorem rstrip_nil : rstrip [] = [] := rfl

theorem rstrip_idem (s : Str) : rstrip (rstrip s) = rstrip s := by
  simp [rstrip, lstrip_idem]

theorem rstrip_append_ws {w : Char} (hw : w.isWhitespace) (s : Str) :
    rstrip (s ++ [w]) = rstrip s := by
  simp [rstrip, lstrip_cons, hw]

theorem rstrip_exists_append (s : Str) : ∃ u, s = rstrip s ++ u := by
  obtain ⟨t, ht⟩ : ∃ t, t ++ lstrip s.reverse = s.reverse :=
    List.dropWhile_suffix (l := s.reverse) (fun c => c.isWhitespace)
  refine ⟨t.reverse, ?_⟩
  calc s = s.reverse.reverse := (List.reverse_reverse s).symm
  _ = (t ++ lstrip s.reverse).reverse := by rw [ht]
  _ = rstrip s ++ t.reverse := by simp [rstrip]

theorem pstrip_cons_ws {w : Char} (hw : w.isWhitespace) (s : Str) :
    pstrip (w :: s) = pstrip s := by
  simp [pstrip, lstrip_cons, hw]

theorem pstrip_append_ws {w : Char} (hw : w.isWhitespace) (s : Str) :
    pstrip (s ++ [w]) = pstrip s := by
  unfold pstrip
  rw [lstrip_append]
  by_cases h : lstrip s = []
  · rw [if_pos h, h, lstrip_cons, if_pos hw]; rfl
  · rw [if_neg h, rstrip_append_ws hw]

theorem pstrip_idem (s : Str) : pstrip (pstrip s) = pstrip s := by
  unfold pstrip
  have hl : lstrip (lstrip s) = lstrip s := lstrip_idem s
  set y := lstrip s with hy
  have hstep : lstrip (rstrip y) = rstrip y := by
    obtain ⟨u, hu⟩ := rstrip_exists_append y
    cases hr : rstrip y with
    | nil => simp [lstrip]
    | cons h t =>
      have hyc : y = h :: (t ++ u) := by rw [hu, hr]; simp
      have hnw : ¬ h.isWhitespace := by
        intro hw
        rw [hyc, lstrip_cons, if_pos hw] at hl
        have h1 := lstrip_length_le (t ++ u)
        have h2 := congrArg List.length hl
        simp only [List.length_cons] at h2
        omega
      rw [lstrip_cons, if_neg hnw]
  rw [hstep, rstrip_idem]

theorem mem_of_mem_lstrip {c : Char} {s : Str} (h : c ∈ lstrip s) : c ∈ s :=
  (List.dropWhile_sublist _).subset h

theorem mem_of_mem_rstrip {c : Char} {s : Str} (h : c ∈ rstrip s) : c ∈ s := by
  unfold rstrip at h
  rw [List.mem_reverse] at h
  exact List.mem_reverse.mp (mem_of_mem_lstrip h)

theorem mem_of_mem_pstrip {c : Char} {s : Str} (h : c ∈ pstrip s) : c ∈ s :=
  mem_of_mem_lstrip (mem_of_mem_rstrip h)

/-- Every part produced by `get_category_parts` is non-empty, already
stripped, and free of the separator. -/
theorem parts_elem_props (k : Str) :
    ∀ q ∈ get_category_parts k, q ≠ [] ∧ pstrip q = q ∧ SEPARATOR ∉ q := by
  intro q hq
  unfold get_category_parts at hq
  obtain ⟨hmem, hne⟩ := List.mem_filter.mp hq
  obtain ⟨seg, hseg, hq'⟩ := List.mem_map.mp hmem
  refine ⟨by simpa using hne, ?_, ?_⟩
  · rw [← hq', pstrip_idem]
  · intro hc
    have hins : SEPARATOR ∈ seg := mem_of_mem_pstrip (by rw [hq']; exact hc)
    exact mem_splitOnChar_not_mem SEPARATOR k seg hseg hins

theorem parts_nil : get_category_parts [] = [] := by decide

theorem sep_not_mem_space : SEPARATOR ∉ ([' '] : Str) := by decide

/-- Round trip: joining clean parts with `" > "` and re-splitting recovers
exactly those parts. -/
theorem parts_joinWith (qs : List Str) (hne : qs ≠ [])
    (hq : ∀ q ∈ qs, q ≠ [] ∧ pstrip q = q ∧ SEPARATOR ∉ q) :
    get_category_parts (joinWith sepJoin qs) = qs := by
  induction qs with
  | nil => exact absurd rfl hne
  | cons q rest ih =>
    obtain ⟨hqne, hqstrip, hqsep⟩ := hq q (List.mem_cons_self q rest)
    cases rest with
    | nil =>
      show get_category_parts (joinWith sepJoin [q]) = [q]
      have hj : joinWith sepJoin [q] = q := rfl
      rw [hj]
      unfold get_category_parts
      rw [splitOnChar_of_not_mem hqsep]
      simp [hqstrip, hqne]
    | cons q' rest' =>
      have hrest : ∀ r ∈ q' :: rest', r ≠ [] ∧ pstrip r = r ∧ SEPARATOR ∉ r :=
        fun r hr => hq r (List.mem_cons_of_mem q hr)
      have ihr := ih (by simp) hrest
      have hj : joinWith sepJoin (q :: q' :: rest') =
          (q ++ [' ']) ++ SEPARATOR :: (' ' :: joinWith sepJoin (q' :: rest')) := by
        show q ++ sepJoin ++ joinWith sepJoin (q' :: rest') = _
        simp [sepJoin, SEPARATOR]
      have hnotmem : SEPARATOR ∉ q ++ [' '] := by
        intro hm
        rcases List.mem_append.mp hm with h1 | h1
        · exact hqsep h1
        · exact sep_not_mem_space h1
      set R := joinWith sepJoin (q' :: rest') with hR
      cases hsplit : splitOnChar SEPARATOR R with
      | nil => exact absurd hsplit (splitOnChar_ne_nil _ _)
      | cons y ys =>
        have hspace : (' ' : Char) ≠ SEPARATOR := by decide
        have hsplit2 : splitOnChar SEPARATOR (' ' :: R) = (' ' :: y) :: ys :=
          splitOnChar_cons_ne hspace R hsplit
        have hfull : splitOnChar SEPARATOR (joinWith sepJoin (q :: q' :: rest')) =
            (q ++ [' ']) :: (' ' :: y) :: ys := by
          rw [hj, splitOnChar_append_sep hnotmem, hsplit2]
        have hws : (' ' : Char).isWhitespace = true := by decide
        have hstrip1 : pstrip (q ++ [' ']) = q := by
          rw [pstrip_append_ws hws, hqstrip]
        have hstrip2 : pstrip (' ' :: y) = pstrip y := pstrip_cons_ws hws y
        unfold get_category_parts at ihr ⊢
        rw [hfull]
        rw [hsplit] at ihr
        simp only [List.map_cons, hstrip1, hstrip2]
        simp only [List.map_cons] at ihr
        rw [List.filter_cons, if_pos (by simp [hqne])]
        rw [ihr]

/-- The parent key's parts are exactly the child key's parts without the
last one (and the child has at least two parts). -/
theorem parts_parent {k pk : Str} (h : get_parent_category_id k = some pk) :
    get_category_parts pk = (get_category_parts k).dropLast ∧
    1 < (get_category_parts k).length := by
  unfold get_parent_category_id at h
  by_cases hlen : (get_category_parts k).length > 1
  · rw [if_pos hlen] at h
    obtain rfl : joinWith sepJoin (get_category_parts k).dropLast = pk :=
      Option.some.inj h
    constructor
    · apply parts_joinWith
      · intro hcon
        have := congrArg List.length hcon
        simp [List.length_dropLast] at this
        omega
      · intro q hq
        exact parts_elem_props k q ((List.dropLast_sublist _).subset hq)
    · exact hlen
  · rw [if_neg hlen] at h
    exact absurd h (by simp)

theorem splitOnChar_append_last (c : Char) (s : Str) :
    splitOnChar c (s ++ [c]) = splitOnChar c s ++ [[]] := by
  induction s with
  | nil => simp [splitOnChar]
  | cons x xs ih =>
    by_cases hx : x = c
    · subst hx
      rw [List.cons_append, splitOnChar_cons_sep, ih, splitOnChar_cons_sep]
      rfl
    · cases h : splitOnChar c xs with
      | nil => exact absurd h (splitOnChar_ne_nil c xs)
      | cons y ys =>
        have h2 : splitOnChar c (xs ++ [c]) = y :: (ys ++ [[]]) := by
          rw [ih, h]; rfl
        rw [List.cons_append, splitOnChar_cons_ne hx _ h2,
          splitOnChar_cons_ne hx _ h]
        rfl

theorem mem_tail_splitOnChar_append (c : Char) (a : Str) {s : Str} {y : Str}
    (h : y ∈ (splitOnChar c s).tail) : y ∈ (splitOnChar c (a ++ s)).tail := by
  induction a with
  | nil => simpa using h
  | cons x xs ih =>
    by_cases hx : x = c
    · subst hx
      rw [List.cons_append, splitOnChar_cons_sep]
      exact List.mem_of_mem_tail ih
    · cases h2 : splitOnChar c (xs ++ s) with
      | nil => exact absurd h2 (splitOnChar_ne_nil c _)
      | cons z zs =>
        rw [List.cons_append, splitOnChar_cons_ne hx _ h2]
        rw [h2] at ih
        exact ih

theorem length_filter_lt_of_mem {α : Type} (p : α → Bool) {l : List α} {a : α}
    (ha : a ∈ l) (hpa : p a = false) : (l.filter p).length < l.length := by
  induction l with
  | nil => cases ha
  | cons x xs ih =>
    rcases List.mem_cons.mp ha with h | h
    · subst h
      rw [List.filter_cons, if_neg (by simp [hpa])]
      have := List.length_filter_le p xs
      simp only [List.length_cons]
      omega
    · rw [List.filter_cons]
      by_cases hx : p x = true
      · rw [if_pos (by simp [hx])]
        simp only [List.length_cons]
        exact Nat.succ_lt_succ (ih h)
      · rw [if_neg (by simp [hx])]
        simp only [List.length_cons]
        exact Nat.lt_succ_of_lt (ih h)

/-- A key with a leading, trailing or doubled separator has an
empty-after-strip segment, so its parts count is at most its depth. -/
theorem parts_length_le_depth_of_empty_seg {key : Str}
    (h : ([] : Str) ∈ splitOnChar SEPARATOR key) :
    (get_category_parts key).length ≤ get_category_depth key := by
  have hmap : ([] : Str) ∈ (splitOnChar SEPARATOR key).map pstrip :=
    List.mem_map.mpr ⟨[], h, rfl⟩
  have hlt : (get_category_parts key).length <
      ((splitOnChar SEPARATOR key).map pstrip).length := by
    unfold get_category_parts
    exact length_filter_lt_of_mem _ hmap (by simp)
  rw [List.length_map, length_splitOnChar] at hlt
  unfold get_category_depth
  omega

/-- C6: `depth(key)` counts raw separator occurrences in the untrimmed key
(not `len(parts) - 1`), `rootPath(key)` is `"../"` repeated `depth+1` times,
and any key with a leading, trailing or doubled separator has a depth at
least its parts count (hence strictly larger than parts count minus one). -/
theorem C6_depth_and_root_path :
    ∀ key : Str,
      (get_category_depth key = key.count SEPARATOR) ∧
      (get_category_root_path key =
        (List.replicate (get_category_depth key + 1) ['.', '.', '/']).flatten) ∧
      (((∃ t, key = SEPARATOR :: t) ∨ (∃ a, key = a ++ [SEPARATOR]) ∨
          (∃ a b, key = a ++ SEPARATOR :: SEPARATOR :: b)) →
        (get_category_parts key).length ≤ get_category_depth key) ∧
      get_category_depth [SEPARATOR, 'a'] ≠
        (get_category_parts [SEPARATOR, 'a']).length - 1 := by
  intro key
  refine ⟨rfl, rfl, ?_, by decide⟩
  intro hcase
  apply parts_length_le_depth_of_empty_seg
  rcases hcase with ⟨t, rfl⟩ | ⟨a, rfl⟩ | ⟨a, b, rfl⟩
  · rw [splitOnChar_cons_sep]
    exact List.mem_cons_self _ _
  · rw [splitOnChar_append_last]
    simp
  · apply List.mem_of_mem_tail
    apply mem_tail_splitOnChar_append
    rw [splitOnChar_cons_sep, splitOnChar_cons_sep]
    simp

/-- C6 witness: a key with a doubled separator, `"a>>b"`, has two parts but
depth 2, and the bound of the theorem holds there. -/
theorem C6_depth_witness :
    ((∃ a b, ("a>>b".toList : Str) = a ++ SEPARATOR :: SEPARATOR :: b) ∨ True) ∧
    (get_category_parts ("a>>b".toList)).length ≤
      get_category_depth ("a>>b".toList) :=
  ⟨Or.inl ⟨['a'], ['b'], by decide⟩,
    (C6_depth_and_root_path ("a>>b".toList)).2.2.1
      (Or.inr (Or.inr ⟨['a'], ['b'], by decide⟩))⟩

/-- C7: the category path is a pure function of the parts sequence —
`slugify` each part, join with `/`, append a trailing `/` — and is therefore
insensitive to surrounding whitespace in the key: `path("a > b")`,
`path("a>b")` and `path(" a > b ")` coincide, and `path("a") = "a/"`. -/
theorem C7_path_deterministic :
    (∀ k : Str, get_category_path k =
       joinWith ['/'] ((get_category_parts k).map slugify) ++ ['/']) ∧
    (∀ k₁ k₂ : Str, get_category_parts k₁ = get_category_parts k₂ →
       get_category_path k₁ = get_category_path k₂) ∧
    get_category_path ("a > b".toList) = get_category_path ("a>b".toList) ∧
    get_category_path ("a>b".toList) = get_category_path (" a > b ".toList) ∧
    get_category_path ("a".toList) = "a/".toList := by
  refine ⟨fun k => rfl, fun k₁ k₂ h => ?_, by decide, by decide, by decide⟩
  unfold get_category_path
  rw [h]

/-- C7 witness: `" a > b "` and `"a>b"` have the same parts, hence the same
path. -/
theorem C7_path_witness :
    get_category_parts (" a > b ".toList) = get_category_parts ("a>b".toList) ∧
    get_category_path (" a > b ".toList) = get_category_path ("a>b".toList) :=
  ⟨by decide, C7_path_deterministic.2.1 _ _ (by decide)⟩

/-! The category data model (`rebuild.py`). -/

/-- A category node, the dict built by `get_category_info`. -/
structure Category where
  name : Str
  title : Str
  desc : Option Str
  parent : Option Str
  id : Str
  path : Str
  children : List Str
deriving DecidableEq

/-- One override entry: the optional `title` / `desc` cells of a row of the
categories page. -/
structure OvEntry where
  title : Option Str
  desc : Option Str
deriving DecidableEq

/-- A row of the categories page: line number, key cell, optional title and
description cells. -/
structure CategoryRow where
  line : Nat
  key : Str
  title : Option Str
  desc : Option Str

/-- The overrides dict, keyed by category id (insertion ordered, unique
keys, later rows replace earlier ones like a Python dict). -/
abbrev Overrides := List (Str × OvEntry)

def ovInsert (ov : Overrides) (k : Str) (e : OvEntry) : Overrides :=
  if ov.any (fun p => p.1 = k) then
    ov.map (fun p => if p.1 = k then (k, e) else p)
  else ov ++ [(k, e)]

/-- `rebuild.get_category_overrides`. -/
def get_category_overrides (categories_page_rows : List CategoryRow) : Overrides :=
  categories_page_rows.foldl (fun ov r => ovInsert ov r.key ⟨r.title, r.desc⟩) []

def ovLookup (ov : Overrides) (k : Str) : Option OvEntry :=
  (ov.find? (fun p => p.1 = k)).map (fun p => p.2)

def ovKeys (ov : Overrides) : List Str := ov.map (fun p => p.1)

/-- `rebuild.get_category_info`: build a fresh node for `category_id`; the
`name = parts[-1]` lookup fails (Python `IndexError`) when the key has no
parts, hence the `Option`. The override, when present, replaces only the
`title` and `desc` fields. -/
def get_category_info (category_id : Str) (overrides : Overrides) :
    Option Category :=
  match (get_category_parts category_id).getLast? with
  | none => none
  | some name =>
    let base : Category :=
      { name := name, title := name, desc := none, parent := none,
        id := category_id, path := get_category_path category_id,
        children := [] }
    some (match ovLookup overrides category_id with
      | none => base
      | some e =>
        { base with
          title := match e.title with | some t => t | none => base.title,
          desc := match e.desc with | some d => some d | none => base.desc })

/-- The category dict under construction: insertion-ordered key/node list. -/
abbrev CatMap := List (Str × Category)

def containsKey (m : CatMap) (k : Str) : Bool := m.any (fun e => e.1 = k)

def lookupKey (m : CatMap) (k : Str) : Option Category :=
  (m.find? (fun e => e.1 = k)).map (fun e => e.2)

/-- Apply `f` to the node stored at key `k` (Python mutates the dict value
in place). -/
def update_entry (m : CatMap) (k : Str) (f : Category → Category) : CatMap :=
  m.map (fun e => if e.1 = k then (e.1, f e.2) else e)

/-- `if categories[child]["parent"] is None: categories[child]["parent"] =
parent_category_id` — the guarded, first-writer-wins parent assignment. -/
def set_parent_if_none (m : CatMap) (k : Str) (p : Str) : CatMap :=
  update_entry m k (fun c =>
    match c.parent with
    | none => { c with parent := some p }
    | some _ => c)

/-- `if child not in categories[parent]["children"]:
categories[parent]["children"].append(child)`. -/
def add_child_if_absent (m : CatMap) (p : Str) (child : Str) : CatMap :=
  update_entry m p (fun c =>
    if child ∈ c.children then c else { c with children := c.children ++ [child] })

/-- `if key not in categories: categories[key] = get_category_info(key,
overrides)` — used by both passes of `get_categories`. -/
def ensure_category (ov : Overrides) (m : CatMap) (k : Str) : Option CatMap :=
  if containsKey m k then some m
  else (get_category_info k ov).map (fun c => m ++ [(k, c)])

/-- One iteration's linking block of the ancestor walk (parent assignment
then child registration, in source order). -/
def linkStep (m : CatMap) (child pk : Str) : CatMap :=
  add_child_if_absent (set_parent_if_none m child pk) pk child

/-- One iteration of the `while child_category_id:` loop body of
`get_categories`: the three guarded node creations, then the linking block
(parent assignment, child registration). -/
def walk_iteration (ov : Overrides) (cats : CatMap) (child : Str) :
    Option CatMap :=
  let parent := get_parent_category_id child
  match ensure_category ov cats child with
  | none => none
  | some cats1 =>
    match (match parent with
           | some pk => if !pk.isEmpty then ensure_category ov cats1 pk
                        else some cats1
           | none => some cats1) with
    | none => none
    | some cats2 =>
      match (if !child.isEmpty then ensure_category ov cats2 child
             else some cats2) with
      | none => none
      | some cats3 =>
        some (match parent with
          | some pk =>
            if !pk.isEmpty && !child.isEmpty then linkStep cats3 child pk
            else cats3
          | none => cats3)

/-- The `while child_category_id:` ancestor walk of `get_categories`,
fuelled by the number of parts of the starting key (each step moves to the
parent, which has exactly one part fewer, so the fuel never runs out on the
recursive calls made by `walk` below). -/
def walkFuel (ov : Overrides) : Nat → CatMap → Str → Option CatMap
  | fuel, cats, child =>
    if child.isEmpty then some cats
    else
      match walk_iteration ov cats child with
      | none => none
      | some cats4 =>
        match get_parent_category_id child with
        | none => some cats4
        | some pk =>
          match fuel with
          | 0 => none
          | f + 1 => walkFuel ov f cats4 pk

/-- The ancestor walk for one link row, started with sufficient fuel. -/
def walk (ov : Overrides) (cats : CatMap) (child : Str) : Option CatMap :=
  walkFuel ov (get_category_parts child).length cats child

/-- A row of the links page, after the cells have been read (the fields used
by the claims; `create_time` as an abstract timestamp). -/
structure LinkRow where
  line_number : Nat
  title : Str
  url : Str
  desc : Str
  category_id : Str
  kind : Str
  lang : Str
  sender : Str
  source : Str
  create_time : Int
deriving DecidableEq

/-- `rebuild.get_categories`: pass 1 creates a node per directly referenced
category, pass 2 walks every ancestor chain, synthesizing missing nodes and
linking parent/children. A key with no parts makes `get_category_info`
fail, hence the `Option`. -/
def get_categories (links_page_rows : List LinkRow)
    (categories_page_rows : List CategoryRow) : Option CatMap :=
  match links_page_rows.foldlM
      (fun cats row =>
        ensure_category (get_category_overrides categories_page_rows) cats
          row.category_id)
      ([] : CatMap) with
  | none => none
  | some cats =>
    links_page_rows.foldlM
      (fun cats row =>
        walk (get_category_overrides categories_page_rows) cats row.category_id)
      cats

/-- The warning loop of `get_categories`: one warning per override key that
is not the direct category of any link row (`set(categories_of_overrides) -
set(categories_of_links)`). -/
def get_categories_warnings (links_page_rows : List LinkRow)
    (categories_page_rows : List CategoryRow) : List Str :=
  let overrides := get_category_overrides categories_page_rows
  (ovKeys overrides).filter
    (fun k => !(links_page_rows.any (fun r => r.category_id = k)))

/-- C10: building a category node is defined exactly for keys with a
non-empty parts sequence; the node's name is the last part (`parts[-1]`),
and a key whose parts sequence is empty makes the last-part lookup fail. -/
theorem C10_info_defined_iff_parts_nonempty :
    ∀ (cid : Str) (ov : Overrides),
      (get_category_parts cid = [] → get_category_info cid ov = none) ∧
      (get_category_parts cid ≠ [] →
        ∃ c, get_category_info cid ov = some c ∧
          some c.name = (get_category_parts cid).getLast?) := by
  intro cid ov
  constructor
  · intro h
    unfold get_category_info
    rw [h]
    rfl
  · intro h
    unfold get_category_info
    cases hl : (get_category_parts cid).getLast? with
    | none => exact absurd (List.getLast?_eq_none_iff.mp hl) h
    | some name =>
      cases ho : ovLookup ov cid with
      | none => exact ⟨_, rfl, rfl⟩
      | some e => exact ⟨_, rfl, rfl⟩

/-- C10 witness: `"a > b"` yields a node named `"b"`, while the all-separator
key `" > "` has no parts and no node. -/
theorem C10_info_witness :
    (get_category_parts ("a > b".toList) ≠ [] ∧
      ∃ c, get_category_info ("a > b".toList) [] = some c ∧
        some c.name = (get_category_parts ("a > b".toList)).getLast?) ∧
    (get_category_parts (" > ".toList) = [] ∧
      get_category_info (" > ".toList) [] = none) :=
  ⟨⟨by decide, (C10_info_defined_iff_parts_nonempty ("a > b".toList) []).2 (by decide)⟩,
   ⟨by decide, (C10_info_defined_iff_parts_nonempty (" > ".toList) []).1 (by decide)⟩⟩

/-- A links-page row with the given category cell (the other cells are
irrelevant to the category tree). -/
def mkRow (cid : Str) : LinkRow :=
  ⟨1, "T".toList, "http://x".toList, "d".toList, cid, "k".toList,
   "en".toList, [], [], 0⟩

/-- C3: tree construction is a pure function of its inputs in this
embedding — two runs of `get_categories` on the same rows and overrides
yield identical category maps. -/
theorem C3_get_categories_deterministic :
    ∀ (rows : List LinkRow) (crows : List CategoryRow) (m₁ m₂ : Option CatMap),
      get_categories rows crows = m₁ → get_categories rows crows = m₂ →
      m₁ = m₂ := by
  intro rows crows m₁ m₂ h₁ h₂
  rw [← h₁, ← h₂]

def rowsC3 : List LinkRow := [mkRow ("a > b".toList)]

/-- C3 witness: both runs on a concrete row list produce the same map. -/
theorem C3_deterministic_witness :
    get_categories rowsC3 [] = get_categories rowsC3 [] :=
  C3_get_categories_deterministic rowsC3 [] (get_categories rowsC3 [])
    (get_categories rowsC3 []) rfl rfl

def rowsC4 : List LinkRow := [mkRow ("a > b > c".toList)]

def crowsC4 : List CategoryRow :=
  [⟨1, "a > b".toList, some ("B Title".toList), none⟩,
   ⟨2, "z".toList, some ("Z Title".toList), none⟩]

/-- C4 counterexample: the override key `"a > b"` is referenced only through
the descendant link `"a > b > c"`; the claim says no warning is emitted for
it, but the warning set is computed from *direct* link categories only, so a
warning is emitted. -/
theorem C4_warning_counterexample :
    ("a > b".toList : Str) ∈ get_categories_warnings rowsC4 crowsC4 := by
  decide

def mC4 : CatMap := (get_categories rowsC4 crowsC4).getD []

def cC4 : Category :=
  (lookupKey mC4 ("a > b".toList)).getD ⟨[], [], none, none, [], [], []⟩

/-- C4 (amended): a warning is emitted for an override key exactly when no
link row has it as its *direct* category — an ancestor reference does not
suppress the warning; the ancestor node is nevertheless synthesized and
carries the override title, and an override key matched by nothing yields
exactly one warning. -/
theorem C4_warnings_amended :
    (∀ (rows : List LinkRow) (crows : List CategoryRow) (k : Str),
       k ∈ get_categories_warnings rows crows ↔
         (k ∈ ovKeys (get_category_overrides crows) ∧
          ∀ r ∈ rows, r.category_id ≠ k)) ∧
    (get_categories rowsC4 crowsC4 = some mC4 ∧
      lookupKey mC4 ("a > b".toList) = some cC4 ∧
      cC4.title = "B Title".toList) ∧
    (get_categories_warnings rowsC4 crowsC4).count ("z".toList) = 1 := by
  refine ⟨?_, ⟨by decide, by decide, by decide⟩, by decide⟩
  intro rows crows k
  unfold get_categories_warnings
  constructor
  · intro h
    obtain ⟨hk, hp⟩ := List.mem_filter.mp h
    refine ⟨hk, ?_⟩
    intro r hr he
    simp only [Bool.not_eq_true', List.any_eq_false] at hp
    exact hp r hr (decide_eq_true he)
  · intro hk
    apply List.mem_filter.mpr
    refine ⟨hk.1, ?_⟩
    simp only [Bool.not_eq_true', List.any_eq_false]
    exact fun r hr hd => hk.2 r hr (of_decide_eq_true hd)

/-- C4 witness: the unmatched override key `"z"` is warned about. -/
theorem C4_warnings_witness :
    ("z".toList : Str) ∈ get_categories_warnings rowsC4 crowsC4 :=
  (C4_warnings_amended.1 rowsC4 crowsC4 ("z".toList)).mpr ⟨by decide, by decide⟩

/-! Links, date ordering and the homepage context. -/

/-- The normalized link record (`rebuild.Link`). -/
structure Link where
  row_number : Nat
  title : Str
  url : Str
  desc : Str
  category_id : Str
  kind : Str
  lang : Str
  sender : Str
  source : Str
  create_time : Int
  file_path : Str
deriving DecidableEq

/-- `rebuild.get_link_from_row`. The `replace(tzinfo=...)` step attaches the
same configured fixed offset to every link's timestamp, so it does not
change the relative order; the timestamp is kept as an abstract integer. -/
def get_link_from_row (row : LinkRow) : Link :=
  { row_number := row.line_number, title := row.title, url := row.url,
    desc := row.desc, category_id := row.category_id, kind := row.kind,
    lang := row.lang, sender := row.sender, source := row.source,
    create_time := row.create_time,
    file_path := get_category_path row.category_id ++ slugify row.url
      ++ ".html".toList }

/-- `sorted(links, key=lambda i: i.create_time, reverse=True)` ordering:
descending by timestamp (ties keep input order — Python's sort is stable,
matching stable insertion sort). -/
def linkDescRel (a b : Link) : Prop := b.create_time ≤ a.create_time

/-- Ascending variant, used with `reverse=False` by the tweeter. -/
def linkAscRel (a b : Link) : Prop := a.create_time ≤ b.create_time

instance : DecidableRel linkDescRel :=
  fun a b => Int.decLe b.create_time a.create_time

instance : DecidableRel linkAscRel :=
  fun a b => Int.decLe a.create_time b.create_time

instance : IsTotal Link linkDescRel :=
  ⟨fun a b => le_total b.create_time a.create_time⟩

instance : IsTrans Link linkDescRel :=
  ⟨fun _ _ _ h₁ h₂ => le_trans h₂ h₁⟩

instance : IsTotal Link linkAscRel :=
  ⟨fun a b => le_total a.create_time b.create_time⟩

instance : IsTrans Link linkAscRel :=
  ⟨fun _ _ _ h₁ h₂ => le_trans h₁ h₂⟩

/-- `rebuild.get_links_by_date`: normalize every row, then stable-sort by
`create_time`, descending when `reverse` (the default). -/
def get_links_by_date (link_rows : List LinkRow) (reverse : Bool := true) :
    List Link :=
  let links := link_rows.map get_link_from_row
  if reverse then List.insertionSort linkDescRel links
  else List.insertionSort linkAscRel links

/-- The part of the template context of `rebuild.render_home` the claims are
about: `latest_links=links[:50]` and `num_of_links=len(link_rows)`. -/
structure HomeContext where
  latest_links : List Link
  num_of_links : Nat

def render_home_context (link_rows : List LinkRow) : HomeContext :=
  { latest_links := (get_links_by_date link_rows).take 50,
    num_of_links := link_rows.length }

/-- C9: the homepage gets the date-descending ordering of all links
truncated to its first 50 elements (so at most 50 links, sorted descending,
drawn from exactly the input rows), while the reported total is the full
row count. -/
theorem C9_home_latest_links :
    ∀ rows : List LinkRow,
      (render_home_context rows).latest_links =
        (get_links_by_date rows).take 50 ∧
      (render_home_context rows).latest_links.length ≤ 50 ∧
      (render_home_context rows).num_of_links = rows.length ∧
      List.Sorted linkDescRel (render_home_context rows).latest_links ∧
      (get_links_by_date rows).Perm (rows.map get_link_from_row) := by
  intro rows
  have hsorted : List.Sorted linkDescRel (get_links_by_date rows) := by
    unfold get_links_by_date
    exact List.sorted_insertionSort linkDescRel _
  refine ⟨rfl, ?_, rfl, ?_, ?_⟩
  · show ((get_links_by_date rows).take 50).length ≤ 50
    rw [List.length_take]
    exact min_le_left _ _
  · exact hsorted.sublist (List.take_sublist 50 _)
  · unfold get_links_by_date
    exact List.perm_insertionSort linkDescRel _

/-! The announcement cursor (`tweeter.py`). -/

/-- How `Tweeter.set_link_to_share` can fail: the explicit
`Exception("No new links to publish")` or Python's `IndexError` raised by
`self.links_sheet[self.current_index]`. -/
inductive ShareError
  | exhausted
  | indexError
deriving DecidableEq

/-- `Tweeter.set_link_to_share`: the guard `current_index >
len(links_sheet)` is strict, then the element is fetched by index. -/
def set_link_to_share (links_sheet : List Link) (current_index : Nat) :
    Except ShareError Link :=
  if links_sheet.length < current_index then Except.error ShareError.exhausted
  else
    match links_sheet.get? current_index with
    | some l => Except.ok l
    | none => Except.error ShareError.indexError

def linkC5 : Link := get_link_from_row (mkRow ("a".toList))

/-- C5: because the guard is strict, at `index = length(sequence)` the code
does not raise the exhaustion error but falls through to the list indexing,
which fails with an IndexError; the exhaustion error fires only for
`index > length`, and `index < length` returns the element at `index`. -/
theorem C5_cursor_off_by_one :
    set_link_to_share [linkC5] 1 = Except.error ShareError.indexError ∧
    set_link_to_share [linkC5] 2 = Except.error ShareError.exhausted ∧
    set_link_to_share [linkC5] 0 = Except.ok linkC5 ∧
    (Except.error ShareError.indexError : Except ShareError Link) ≠
      Except.error ShareError.exhausted := by
  refine ⟨rfl, rfl, rfl, by simp⟩

/-! The workbook validation loop (`rebuild.build`). -/

/-- A raw worksheet cell: absent (`None`), a string, or a non-string value
such as the `datetime` stored in `create_time`. -/
inductive CellVal
  | str (s : Str)
  | other (n : Int)
deriving DecidableEq

abbrev Cell := Option CellVal

/-- A raw links-page row as produced by `get_rows`: the prepended worksheet
index `row[0]` plus the nine data cells at `enumerate` positions 1 … 9. -/
structure RawRow where
  line : Nat
  cells : List Cell

def LINK_COLUMNS : List Str :=
  ["line_number".toList, "title".toList, "url".toList, "desc".toList,
   "category_id".toList, "kind".toList, "lang".toList, "sender".toList,
   "source".toList, "create_time".toList]

def REQUIRED_COLUMNS : List Str :=
  ["title".toList, "url".toList, "desc".toList, "category_id".toList,
   "kind".toList, "lang".toList, "create_time".toList]

/-- `rebuild.get_column_index` (every call site passes a valid name). -/
def get_column_index (key : Str) : Nat := LINK_COLUMNS.indexOf key

/-- The `required_column_indexes` dict built in `build`. -/
def required_column_indexes : List (Nat × Str) :=
  REQUIRED_COLUMNS.map (fun c => (get_column_index c, c))

def requiredLookup (i : Nat) : Option Str :=
  (required_column_indexes.find? (fun p => p.1 = i)).map (fun p => p.2)

/-- How the validation loop terminates a row early. `keyError` models the
Python `KeyError` raised by `required_column_indexes[index]` when the
trim check fires on a column that is not in that dict. -/
inductive ValidationError
  | missingValue (line : Nat) (column : Str)
  | mustBeTrimmed (line : Nat) (column : Str)
  | keyError (index : Nat)
deriving DecidableEq

/-- The per-cell body of the validation loop in `build`: missing-value check
on required columns first, then the whitespace check on every string cell,
whose error message looks the column name up in `required_column_indexes`. -/
def validate_cell (line index : Nat) (cell : Cell) :
    Except ValidationError Unit := do
  match requiredLookup index, cell with
  | some col, none => throw (ValidationError.missingValue (line + 1) col)
  | _, _ => pure ()
  match cell with
  | some (CellVal.str s) =>
    if s.head? = some ' ' ∨ s.getLast? = some ' ' then
      match requiredLookup index with
      | some col => throw (ValidationError.mustBeTrimmed (line + 1) col)
      | none => throw (ValidationError.keyError index)
    else pure ()
  | _ => pure ()

/-- One row of the validation loop (`enumerate(row)` skips `index == 0`). -/
def validate_row (r : RawRow) : Except ValidationError Unit :=
  (r.cells.enumFrom 1).forM (fun ic => validate_cell r.line ic.1 ic.2)

/-- The `Validating Workbook` loop of `rebuild.build`. -/
def validate_workbook (rows : List RawRow) : Except ValidationError Unit :=
  rows.forM validate_row

def strCell (s : String) : Cell := some (CellVal.str s.toList)

/-- First data row with a leading space in the non-required `sender` cell
(enumerate position 7). -/
def rowC8a : RawRow :=
  ⟨1, [strCell "T", strCell "u", strCell "d", strCell "a", strCell "k",
       strCell "en", strCell " x", strCell "s", some (CellVal.other 0)]⟩

/-- First data row with a missing required `title` cell. -/
def rowC8b : RawRow :=
  ⟨1, [none, strCell "u", strCell "d", strCell "a", strCell "k",
       strCell "en", strCell "m", strCell "s", some (CellVal.other 0)]⟩

/-- First data row with an untrimmed required `title` cell. -/
def rowC8c : RawRow :=
  ⟨1, [strCell " T", strCell "u", strCell "d", strCell "a", strCell "k",
       strCell "en", strCell "m", strCell "s", some (CellVal.other 0)]⟩

/-- C8: a missing required cell and an untrimmed required string cell are
reported with row number and column name as claimed, but an untrimmed
*non-required* string cell (e.g. `sender`) makes the error-message lookup
`required_column_indexes[index]` fail with a KeyError instead of the claimed
validation error naming the column. -/
theorem C8_validation_keyerror :
    validate_workbook [rowC8b] =
      Except.error (ValidationError.missingValue 2 ("title".toList)) ∧
    validate_workbook [rowC8c] =
      Except.error (ValidationError.mustBeTrimmed 2 ("title".toList)) ∧
    validate_workbook [rowC8a] =
      Except.error (ValidationError.keyError 7) := by
  exact ⟨rfl, rfl, rfl⟩

/-! Lemmas about the category-map operations, towards the C1/C2 invariants. -/

theorem lookupKey_cons (e : Str × Category) (m : CatMap) (k : Str) :
    lookupKey (e :: m) k = if e.1 = k then some e.2 else lookupKey m k := by
  unfold lookupKey
  by_cases h : e.1 = k
  · rw [List.find?_cons_of_pos _ (by simp [h]), if_pos h]
    rfl
  · rw [List.find?_cons_of_neg _ (by simp [h]), if_neg h]

theorem containsKey_iff_lookup (m : CatMap) (k : Str) :
    containsKey m k = true ↔ ∃ c, lookupKey m k = some c := by
  induction m with
  | nil => simp [containsKey, lookupKey]
  | cons e m ih =>
    by_cases h : e.1 = k
    · simp [containsKey, List.any_cons, h, lookupKey_cons]
    · simp only [containsKey, List.any_cons, lookupKey_cons, if_neg h]
      simp only [containsKey] at ih
      simp [h, ih]

theorem lookupKey_eq_none_iff (m : CatMap) (k : Str) :
    lookupKey m k = none ↔ containsKey m k = false := by
  constructor
  · intro h
    cases hc : containsKey m k with
    | false => rfl
    | true =>
      obtain ⟨c, hc2⟩ := (containsKey_iff_lookup m k).mp hc
      rw [h] at hc2
      cases hc2
  · intro h
    cases hl : lookupKey m k with
    | none => rfl
    | some c =>
      have := (containsKey_iff_lookup m k).mpr ⟨c, hl⟩
      rw [h] at this
      cases this

theorem lookupKey_append_some {m : CatMap} {k : Str} {c : Category}
    (h : lookupKey m k = some c) (l : CatMap) :
    lookupKey (m ++ l) k = some c := by
  induction m with
  | nil => cases h
  | cons e m ih =>
    rw [List.cons_append, lookupKey_cons]
    rw [lookupKey_cons] at h
    by_cases he : e.1 = k
    · rwa [if_pos he] at h ⊢
    · rw [if_neg he] at h ⊢
      exact ih h

theorem lookupKey_append_none {m : CatMap} {k : Str}
    (h : lookupKey m k = none) (l : CatMap) :
    lookupKey (m ++ l) k = lookupKey l k := by
  induction m with
  | nil => rfl
  | cons e m ih =>
    rw [List.cons_append, lookupKey_cons]
    rw [lookupKey_cons] at h
    by_cases he : e.1 = k
    · rw [if_pos he] at h
      cases h
    · rw [if_neg he] at h ⊢
      exact ih h

theorem update_entry_cons (e : Str × Category) (m : CatMap) (k : Str)
    (f : Category → Category) :
    update_entry (e :: m) k f =
      (if e.1 = k then (e.1, f e.2) else e) :: update_entry m k f := rfl

theorem lookupKey_update_self (m : CatMap) (k : Str) (f : Category → Category) :
    lookupKey (update_entry m k f) k = (lookupKey m k).map f := by
  induction m with
  | nil => rfl
  | cons e m ih =>
    rw [update_entry_cons]
    by_cases he : e.1 = k
    · rw [if_pos he, lookupKey_cons, lookupKey_cons]
      simp [he]
    · rw [if_neg he, lookupKey_cons, lookupKey_cons, if_neg he, if_neg he]
      exact ih

theorem lookupKey_update_other {k' k : Str} (hne : k' ≠ k) (m : CatMap)
    (f : Category → Category) :
    lookupKey (update_entry m k f) k' = lookupKey m k' := by
  induction m with
  | nil => rfl
  | cons e m ih =>
    rw [update_entry_cons]
    by_cases he : e.1 = k
    · have hne2 : ¬ e.1 = k' := by rw [he]; exact fun h2 => hne h2.symm
      rw [if_pos he, lookupKey_cons, lookupKey_cons, if_neg (by simpa using hne2),
        if_neg hne2]
      exact ih
    · rw [if_neg he, lookupKey_cons, lookupKey_cons]
      by_cases he2 : e.1 = k'
      · rw [if_pos he2, if_pos he2]
      · rw [if_neg he2, if_neg he2]
        exact ih

theorem containsKey_update (m : CatMap) (k k' : Str) (f : Category → Category) :
    containsKey (update_entry m k f) k' = containsKey m k' := by
  induction m with
  | nil => rfl
  | cons e m ih =>
    rw [update_entry_cons]
    simp only [containsKey, List.any_cons] at ih ⊢
    by_cases he : e.1 = k
    · simp [he, ih]
    · simp [he, ih]

theorem containsKey_append_left {m : CatMap} {k : Str}
    (h : containsKey m k = true) (l : CatMap) :
    containsKey (m ++ l) k = true := by
  unfold containsKey at h ⊢
  simp [List.any_append, h]

/-- Inversion for `ensure_category`. -/
theorem ensure_cases {ov : Overrides} {m : CatMap} {k : Str} {m' : CatMap}
    (h : ensure_category ov m k = some m') :
    (containsKey m k = true ∧ m' = m) ∨
      (containsKey m k = false ∧
        ∃ c, get_category_info k ov = some c ∧ m' = m ++ [(k, c)]) := by
  unfold ensure_category at h
  split at h
  case isTrue hc => exact Or.inl ⟨hc, (Option.some.inj h).symm⟩
  case isFalse hc =>
    cases hi : get_category_info k ov with
    | none =>
      rw [hi] at h
      cases h
    | some c =>
      rw [hi] at h
      simp only [Option.map_some'] at h
      exact Or.inr ⟨by simpa using hc, c, rfl, (Option.some.inj h).symm⟩

theorem ensure_contains {ov : Overrides} {m : CatMap} {k : Str} {m' : CatMap}
    (h : ensure_category ov m k = some m') : containsKey m' k = true := by
  rcases ensure_cases h with ⟨hc, rfl⟩ | ⟨hc, c, hi, rfl⟩
  · exact hc
  · apply (containsKey_iff_lookup _ _).mpr
    refine ⟨c, ?_⟩
    rw [lookupKey_append_none ((lookupKey_eq_none_iff m k).mpr hc), lookupKey_cons]
    simp

theorem ensure_lookup_preserved {ov : Overrides} {m : CatMap} {k : Str}
    {m' : CatMap} (h : ensure_category ov m k = some m') {k' : Str}
    {c : Category} (hl : lookupKey m k' = some c) :
    lookupKey m' k' = some c := by
  rcases ensure_cases h with ⟨_, rfl⟩ | ⟨hc, c₀, hi, rfl⟩
  · exact hl
  · exact lookupKey_append_some hl _

theorem ensure_mono {ov : Overrides} {m : CatMap} {k : Str} {m' : CatMap}
    (h : ensure_category ov m k = some m') {k' : Str}
    (hc : containsKey m k' = true) : containsKey m' k' = true := by
  rcases ensure_cases h with ⟨_, rfl⟩ | ⟨_, c₀, hi, rfl⟩
  · exact hc
  · exact containsKey_append_left hc _

/-- Inversion of a successful lookup after `ensure_category`: the node was
already there, or it is the freshly built one. -/
theorem ensure_lookup_inv {ov : Overrides} {m : CatMap} {k : Str}
    {m' : CatMap} (h : ensure_category ov m k = some m') {k' : Str}
    {c' : Category} (hl : lookupKey m' k' = some c') :
    lookupKey m k' = some c' ∨
      (lookupKey m k' = none ∧ k' = k ∧ get_category_info k ov = some c') := by
  rcases ensure_cases h with ⟨_, rfl⟩ | ⟨hcf, c₀, hi, rfl⟩
  · exact Or.inl hl
  · cases hm : lookupKey m k' with
    | some c₁ =>
      have h2 := lookupKey_append_some hm [(k, c₀)]
      rw [hl] at h2
      exact Or.inl (congrArg some (Option.some.inj h2)).symm
    | none =>
      right
      have h2 := lookupKey_append_none hm [(k, c₀)]
      rw [hl, lookupKey_cons] at h2
      by_cases hk : k = k'
      · rw [if_pos hk] at h2
        obtain rfl := Option.some.inj h2
        exact ⟨rfl, hk.symm, hi⟩
      · rw [if_neg hk] at h2
        cases h2

/-- A freshly built node has no parent, no children, and a key with at
least one part. -/
theorem info_props {k : Str} {ov : Overrides} {c : Category}
    (h : get_category_info k ov = some c) :
    c.parent = none ∧ c.children = [] ∧ get_category_parts k ≠ [] := by
  unfold get_category_info at h
  cases hl : (get_category_parts k).getLast? with
  | none =>
    rw [hl] at h
    cases h
  | some name =>
    rw [hl] at h
    have hne : get_category_parts k ≠ [] := by
      intro hk
      rw [hk] at hl
      cases hl
    cases ho : ovLookup ov k with
    | none =>
      rw [ho] at h
      obtain rfl := Option.some.inj h
      exact ⟨rfl, rfl, hne⟩
    | some e =>
      rw [ho] at h
      obtain rfl := Option.some.inj h
      exact ⟨rfl, rfl, hne⟩

theorem parts_nil_eq : get_category_parts ([] : Str) = [] := by decide

theorem parent_ne_nil {k pk : Str} (h : get_parent_category_id k = some pk) :
    pk ≠ [] := by
  obtain ⟨hparts, hlen⟩ := parts_parent h
  intro he
  rw [he, parts_nil_eq] at hparts
  have := congrArg List.length hparts
  rw [List.length_dropLast] at this
  simp at this
  omega

theorem parent_ne_self (k : Str) : get_parent_category_id k ≠ some k := by
  intro h
  obtain ⟨hparts, hlen⟩ := parts_parent h
  have := congrArg List.length hparts
  rw [List.length_dropLast] at this
  omega

theorem parent_parts_length {k pk : Str}
    (h : get_parent_category_id k = some pk) :
    (get_category_parts pk).length + 1 = (get_category_parts k).length := by
  obtain ⟨hparts, hlen⟩ := parts_parent h
  rw [hparts, List.length_dropLast]
  omega

theorem parent_parts_dropLast {k pk : Str}
    (h : get_parent_category_id k = some pk) :
    get_category_parts pk = (get_category_parts k).dropLast :=
  (parts_parent h).1

/-- Two keys whose parent relation links them are distinct. -/
theorem parent_ne_child {k pk : Str}
    (h : get_parent_category_id k = some pk) : pk ≠ k := by
  intro he
  exact parent_ne_self k (he ▸ h)

theorem nodup_append_single {α : Type} {l : List α} {a : α} (h : l.Nodup)
    (ha : a ∉ l) : (l ++ [a]).Nodup := by
  rw [List.nodup_append]
  exact ⟨h, List.nodup_singleton a,
    fun x hx hxa => ha (List.mem_singleton.mp hxa ▸ hx)⟩

/-- Invariant: every key in the map has a non-empty parts sequence. -/
def keyPartsInv (m : CatMap) : Prop :=
  ∀ k c, lookupKey m k = some c → get_category_parts k ≠ []

/-- Invariant: a node's parent pointer, when set, is exactly the structural
parent key, which is present in the map and lists the node as a child. -/
def parentInv (m : CatMap) : Prop :=
  ∀ k c, lookupKey m k = some c →
    c.parent = none ∨
      ∃ pk, get_parent_category_id k = some pk ∧ c.parent = some pk ∧
        ∃ pc, lookupKey m pk = some pc ∧ k ∈ pc.children

/-- Invariant: every registered child is structurally a child, is present
in the map, and points back at the holder. -/
def childrenInv (m : CatMap) : Prop :=
  ∀ p pc, lookupKey m p = some pc → ∀ c ∈ pc.children,
    get_parent_category_id c = some p ∧
      ∃ cc, lookupKey m c = some cc ∧ cc.parent = some p

/-- Invariant: children lists have no duplicates. -/
def childrenNodupInv (m : CatMap) : Prop :=
  ∀ p pc, lookupKey m p = some pc → pc.children.Nodup

def CatInv (m : CatMap) : Prop :=
  keyPartsInv m ∧ parentInv m ∧ childrenInv m ∧ childrenNodupInv m

theorem catInv_nil : CatInv [] := by
  refine ⟨?_, ?_, ?_, ?_⟩ <;> intro k c h <;> cases h

theorem catInv_ensure {ov : Overrides} {m : CatMap} {k : Str} {m' : CatMap}
    (hinv : CatInv m) (h : ensure_category ov m k = some m') : CatInv m' := by
  obtain ⟨hkp, hpar, hch, hnd⟩ := hinv
  refine ⟨?_, ?_, ?_, ?_⟩
  · intro k' c' hl
    rcases ensure_lookup_inv h hl with h1 | ⟨_, rfl, h2⟩
    · exact hkp _ _ h1
    · exact (info_props h2).2.2
  · intro k' c' hl
    rcases ensure_lookup_inv h hl with h1 | ⟨_, rfl, h2⟩
    · rcases hpar _ _ h1 with hnone | ⟨pk, hpk, hcp, pc, hpc, hmem⟩
      · exact Or.inl hnone
      · exact Or.inr ⟨pk, hpk, hcp, pc, ensure_lookup_preserved h hpc, hmem⟩
    · exact Or.inl (info_props h2).1
  · intro p pc hl c hcm
    rcases ensure_lookup_inv h hl with h1 | ⟨_, rfl, h2⟩
    · obtain ⟨hpc, cc, hcc, hccp⟩ := hch _ _ h1 c hcm
      exact ⟨hpc, cc, ensure_lookup_preserved h hcc, hccp⟩
    · rw [(info_props h2).2.1] at hcm
      cases hcm
  · intro p pc hl
    rcases ensure_lookup_inv h hl with h1 | ⟨_, rfl, h2⟩
    · exact hnd _ _ h1
    · rw [(info_props h2).2.1]
      exact List.nodup_nil

/-- All lookups after a `linkStep`, bundled. -/
theorem linkStep_lookups {m : CatMap} {child pk : Str} {cc pc : Category}
    (hcc : lookupKey m child = some cc) (hpc : lookupKey m pk = some pc)
    (hne : pk ≠ child) :
    ∃ cc' pc',
      lookupKey (linkStep m child pk) child = some cc' ∧
      lookupKey (linkStep m child pk) pk = some pc' ∧
      (∀ x, x ≠ child → x ≠ pk →
        lookupKey (linkStep m child pk) x = lookupKey m x) ∧
      cc'.parent = (match cc.parent with
                    | none => some pk
                    | some q => some q) ∧
      cc'.children = cc.children ∧
      pc'.parent = pc.parent ∧
      pc'.children = (if child ∈ pc.children then pc.children
                      else pc.children ++ [child]) := by
  refine ⟨(match cc.parent with
           | none => { cc with parent := some pk }
           | some _ => cc),
          (if child ∈ pc.children then pc
           else { pc with children := pc.children ++ [child] }),
          ?_, ?_, ?_, ?_, ?_, ?_, ?_⟩
  · unfold linkStep add_child_if_absent set_parent_if_none
    rw [lookupKey_update_other (fun h => hne h.symm), lookupKey_update_self, hcc]
    rfl
  · unfold linkStep add_child_if_absent set_parent_if_none
    rw [lookupKey_update_self, lookupKey_update_other hne, hpc]
    rfl
  · intro x hx1 hx2
    unfold linkStep add_child_if_absent set_parent_if_none
    rw [lookupKey_update_other hx2, lookupKey_update_other hx1]
  · cases h : cc.parent with
    | none => rfl
    | some q => exact h
  · cases cc.parent <;> rfl
  · split <;> rfl
  · split <;> rfl

/-- The linking block preserves the tree invariants when both endpoints are
present and really are in the structural parent relation. -/
theorem catInv_linkStep {m : CatMap} {child pk : Str} (hinv : CatInv m)
    {cc pc : Category}
    (hcc : lookupKey m child = some cc) (hpc : lookupKey m pk = some pc)
    (hp : get_parent_category_id child = some pk) :
    CatInv (linkStep m child pk) := by
  obtain ⟨hkp, hpar, hch, hnd⟩ := hinv
  have hne : pk ≠ child := parent_ne_child hp
  obtain ⟨cc', pc', hLc, hLp, hLo, hcp', hcch', hpp', hpch'⟩ :=
    linkStep_lookups hcc hpc hne
  have hccp2 : cc'.parent = some pk := by
    rw [hcp']
    cases hq : cc.parent with
    | none => rfl
    | some q =>
      rcases hpar _ _ hcc with hnone | ⟨pk₂, hpk₂, hcp₂, _⟩
      · rw [hq] at hnone
        cases hnone
      · rw [hp] at hpk₂
        obtain rfl := Option.some.inj hpk₂
        rw [hq] at hcp₂
        exact hcp₂
  have hmemch : child ∈ pc'.children := by
    rw [hpch']
    split
    · assumption
    · simp
  have hsub : ∀ c ∈ pc.children, c ∈ pc'.children := by
    intro c hcm
    rw [hpch']
    split
    · exact hcm
    · exact List.mem_append.mpr (Or.inl hcm)
  have hchinv : ∀ c ∈ pc'.children, c ∈ pc.children ∨ child = c := by
    intro c hcm
    rw [hpch'] at hcm
    split at hcm
    · exact Or.inl hcm
    · rcases List.mem_append.mp hcm with h1 | h1
      · exact Or.inl h1
      · exact Or.inr (by simpa using h1 : c = child).symm
  have hcls : ∀ x cx, lookupKey (linkStep m child pk) x = some cx →
      (child = x ∧ cc' = cx) ∨ (pk = x ∧ pc' = cx) ∨
        (x ≠ child ∧ x ≠ pk ∧ lookupKey m x = some cx) := by
    intro x cx hx
    by_cases h1 : x = child
    · rw [h1, hLc] at hx
      exact Or.inl ⟨h1.symm, Option.some.inj hx⟩
    · by_cases h2 : x = pk
      · rw [h2, hLp] at hx
        exact Or.inr (Or.inl ⟨h2.symm, Option.some.inj hx⟩)
      · rw [hLo x h1 h2] at hx
        exact Or.inr (Or.inr ⟨h1, h2, hx⟩)
  have hupg : ∀ q qc, lookupKey m q = some qc →
      ∃ qc₂, lookupKey (linkStep m child pk) q = some qc₂ ∧
        ∀ a ∈ qc.children, a ∈ qc₂.children := by
    intro q qc hq
    by_cases h1 : q = child
    · obtain rfl : qc = cc := by
        rw [h1] at hq
        exact Option.some.inj (hq.symm.trans hcc)
      refine ⟨cc', by rw [h1]; exact hLc, fun a ha => by rw [hcch']; exact ha⟩
    · by_cases h2 : q = pk
      · obtain rfl : qc = pc := by
          rw [h2] at hq
          exact Option.some.inj (hq.symm.trans hpc)
        exact ⟨pc', by rw [h2]; exact hLp, hsub⟩
      · exact ⟨qc, by rw [hLo q h1 h2]; exact hq, fun a ha => ha⟩
  have hpar_pres : ∀ q qc, lookupKey m q = some qc → q ≠ child →
      ∃ qc₂, lookupKey (linkStep m child pk) q = some qc₂ ∧
        qc₂.parent = qc.parent := by
    intro q qc hq h1
    by_cases h2 : q = pk
    · obtain rfl : qc = pc := by
        rw [h2] at hq
        exact Option.some.inj (hq.symm.trans hpc)
      exact ⟨pc', by rw [h2]; exact hLp, hpp'⟩
    · exact ⟨qc, by rw [hLo q h1 h2]; exact hq, rfl⟩
  refine ⟨?_, ?_, ?_, ?_⟩
  · -- keyPartsInv
    intro k' c' hl
    rcases hcls _ _ hl with ⟨rfl, _⟩ | ⟨rfl, _⟩ | ⟨_, _, h3⟩
    · exact hkp _ _ hcc
    · exact hkp _ _ hpc
    · exact hkp _ _ h3
  · -- parentInv
    intro k' c' hl
    rcases hcls _ _ hl with ⟨rfl, rfl⟩ | ⟨rfl, rfl⟩ | ⟨hn1, hn2, h3⟩
    · exact Or.inr ⟨pk, hp, hccp2, pc', hLp, hmemch⟩
    · rw [hpp']
      rcases hpar _ _ hpc with hnone | ⟨qk, hqk, hqp, qc, hqc, hqmem⟩
      · exact Or.inl hnone
      · obtain ⟨qc₂, hqc₂, hqsub⟩ := hupg _ _ hqc
        exact Or.inr ⟨qk, hqk, hqp, qc₂, hqc₂, hqsub _ hqmem⟩
    · rcases hpar _ _ h3 with hnone | ⟨qk, hqk, hqp, qc, hqc, hqmem⟩
      · exact Or.inl hnone
      · obtain ⟨qc₂, hqc₂, hqsub⟩ := hupg _ _ hqc
        exact Or.inr ⟨qk, hqk, hqp, qc₂, hqc₂, hqsub _ hqmem⟩
  · -- childrenInv
    intro p pcx hl c hcm
    rcases hcls _ _ hl with ⟨rfl, rfl⟩ | ⟨rfl, rfl⟩ | ⟨hn1, hn2, h3⟩
    · -- holder is `child`; its children list is unchanged
      rw [hcch'] at hcm
      obtain ⟨hpcs, cc₀, hcc₀, hcc₀p⟩ := hch _ _ hcc c hcm
      have hcnechild : c ≠ child := by
        intro he
        exact parent_ne_self child (he ▸ hpcs)
      obtain ⟨cc₂, hcc₂, hcc₂p⟩ := hpar_pres _ _ hcc₀ hcnechild
      exact ⟨hpcs, cc₂, hcc₂, by rw [hcc₂p]; exact hcc₀p⟩
    · -- holder is `pk`
      rcases hchinv c hcm with hold | rfl
      · obtain ⟨hpcs, cc₀, hcc₀, hcc₀p⟩ := hch _ _ hpc c hold
        by_cases hcch : c = child
        · exact ⟨hpcs, cc', by rw [hcch]; exact hLc, hccp2⟩
        · obtain ⟨cc₂, hcc₂, hcc₂p⟩ := hpar_pres _ _ hcc₀ hcch
          exact ⟨hpcs, cc₂, hcc₂, by rw [hcc₂p]; exact hcc₀p⟩
      · exact ⟨hp, cc', hLc, hccp2⟩
    · -- unrelated holder
      obtain ⟨hpcs, cc₀, hcc₀, hcc₀p⟩ := hch _ _ h3 c hcm
      have hcnechild : c ≠ child := by
        intro he
        exact hn2 (Option.some.inj ((he ▸ hpcs).symm.trans hp))
      obtain ⟨cc₂, hcc₂, hcc₂p⟩ := hpar_pres _ _ hcc₀ hcnechild
      exact ⟨hpcs, cc₂, hcc₂, by rw [hcc₂p]; exact hcc₀p⟩
  · -- childrenNodupInv
    intro p pcx hl
    rcases hcls _ _ hl with ⟨rfl, rfl⟩ | ⟨rfl, rfl⟩ | ⟨_, _, h3⟩
    · rw [hcch']
      exact hnd _ _ hcc
    · rw [hpch']
      split
      · exact hnd _ _ hpc
      · exact nodup_append_single (hnd _ _ hpc) (by assumption)
    · exact hnd _ _ h3

theorem isEmpty_false_of_ne {s : Str} (h : s ≠ []) : s.isEmpty = false := by
  cases s with
  | nil => exact absurd rfl h
  | cons x xs => rfl

theorem parent_none_parts_le {k : Str} (h : get_parent_category_id k = none) :
    (get_category_parts k).length ≤ 1 := by
  unfold get_parent_category_id at h
  by_cases hl : (get_category_parts k).length > 1
  · rw [if_pos hl] at h
    cases h
  · omega

theorem parent_eq_join {k pk : Str} (h : get_parent_category_id k = some pk) :
    pk = joinWith sepJoin (get_category_parts k).dropLast := by
  unfold get_parent_category_id at h
  by_cases hl : (get_category_parts k).length > 1
  · rw [if_pos hl] at h
    exact (Option.some.inj h).symm
  · rw [if_neg hl] at h
    cases h

theorem containsKey_linkStep (m : CatMap) (child pk x : Str) :
    containsKey (linkStep m child pk) x = containsKey m x := by
  unfold linkStep add_child_if_absent set_parent_if_none
  rw [containsKey_update, containsKey_update]

/-- Generic preservation across one loop iteration of the ancestor walk. -/
theorem walk_iteration_preserve {ov : Overrides} (P : CatMap → Prop)
    (hens : ∀ m k m', P m → ensure_category ov m k = some m' → P m')
    (hlink : ∀ (m : CatMap) (child pk : Str) (cc pc : Category), P m →
      lookupKey m child = some cc → lookupKey m pk = some pc →
      get_parent_category_id child = some pk → P (linkStep m child pk))
    {cats : CatMap} {child : Str} {cats4 : CatMap} (hP : P cats)
    (h : walk_iteration ov cats child = some cats4) : P cats4 := by
  unfold walk_iteration at h
  dsimp only [] at h
  cases h1 : ensure_category ov cats child with
  | none =>
    rw [h1] at h
    cases h
  | some cats1 =>
    rw [h1] at h
    dsimp only [] at h
    have hP1 : P cats1 := hens _ _ _ hP h1
    have hc1 : containsKey cats1 child = true := ensure_contains h1
    cases hpar : get_parent_category_id child with
    | none =>
      rw [hpar] at h
      dsimp only [] at h
      cases h3 : (if !child.isEmpty then ensure_category ov cats1 child
                  else some cats1) with
      | none =>
        rw [h3] at h
        cases h
      | some cats3 =>
        rw [h3] at h
        dsimp only [] at h
        obtain rfl := Option.some.inj h
        split at h3
        · exact hens _ _ _ hP1 h3
        · obtain rfl := Option.some.inj h3
          exact hP1
    | some pk =>
      rw [hpar] at h
      dsimp only [] at h
      cases hmid : (if !pk.isEmpty then ensure_category ov cats1 pk
                    else some cats1) with
      | none =>
        rw [hmid] at h
        cases h
      | some cats2 =>
        rw [hmid] at h
        dsimp only [] at h
        have hP2 : P cats2 := by
          split at hmid
          · exact hens _ _ _ hP1 hmid
          · obtain rfl := Option.some.inj hmid
            exact hP1
        have hc2 : containsKey cats2 child = true := by
          split at hmid
          · exact ensure_mono hmid hc1
          · obtain rfl := Option.some.inj hmid
            exact hc1
        have hcpk2 : (!pk.isEmpty) = true → containsKey cats2 pk = true := by
          intro hpkne
          rw [if_pos hpkne] at hmid
          exact ensure_contains hmid
        cases h3 : (if !child.isEmpty then ensure_category ov cats2 child
                    else some cats2) with
        | none =>
          rw [h3] at h
          cases h
        | some cats3 =>
          rw [h3] at h
          dsimp only [] at h
          have hP3 : P cats3 := by
            split at h3
            · exact hens _ _ _ hP2 h3
            · obtain rfl := Option.some.inj h3
              exact hP2
          have hc3 : containsKey cats3 child = true := by
            split at h3
            · exact ensure_mono h3 hc2
            · obtain rfl := Option.some.inj h3
              exact hc2
          have hcpk3 : (!pk.isEmpty) = true → containsKey cats3 pk = true := by
            intro hpkne
            split at h3
            · exact ensure_mono h3 (hcpk2 hpkne)
            · obtain rfl := Option.some.inj h3
              exact hcpk2 hpkne
          obtain rfl := Option.some.inj h
          by_cases hcond : (!pk.isEmpty && !child.isEmpty) = true
          · rw [if_pos hcond]
            have hpkne : (!pk.isEmpty) = true :=
              ((Bool.and_eq_true _ _).mp hcond).1
            obtain ⟨cc, hcc⟩ :=
              (containsKey_iff_lookup cats3 child).mp hc3
            obtain ⟨pc, hpc⟩ :=
              (containsKey_iff_lookup cats3 pk).mp (hcpk3 hpkne)
            exact hlink _ _ _ _ _ hP3 hcc hpc hpar
          · rw [if_neg hcond]
            exact hP3

theorem eq_nil_of_isEmpty {s : Str} (h : s.isEmpty = true) : s = [] := by
  cases s with
  | nil => rfl
  | cons x xs => cases h

/-- One loop iteration puts the current key in the map, puts the parent key
in the map when it is truthy, and never removes keys. -/
theorem walk_iteration_facts {ov : Overrides} {cats : CatMap} {child : Str}
    {cats4 : CatMap} (h : walk_iteration ov cats child = some cats4) :
    containsKey cats4 child = true ∧
      (∀ pk, get_parent_category_id child = some pk → pk ≠ [] →
        containsKey cats4 pk = true) ∧
      (∀ k, containsKey cats k = true → containsKey cats4 k = true) := by
  unfold walk_iteration at h
  dsimp only [] at h
  cases h1 : ensure_category ov cats child with
  | none =>
    rw [h1] at h
    cases h
  | some cats1 =>
    rw [h1] at h
    dsimp only [] at h
    have hc1 : containsKey cats1 child = true := ensure_contains h1
    have hm1 : ∀ k, containsKey cats k = true → containsKey cats1 k = true :=
      fun k hk => ensure_mono h1 hk
    cases hpar : get_parent_category_id child with
    | none =>
      rw [hpar] at h
      dsimp only [] at h
      cases h3 : (if !child.isEmpty then ensure_category ov cats1 child
                  else some cats1) with
      | none =>
        rw [h3] at h
        cases h
      | some cats3 =>
        rw [h3] at h
        dsimp only [] at h
        have h4 : cats3 = cats4 := Option.some.inj h
        have hstep : ∀ k, containsKey cats1 k = true →
            containsKey cats4 k = true := by
          intro k hk
          rw [← h4]
          split at h3
          · exact ensure_mono h3 hk
          · obtain rfl := Option.some.inj h3
            exact hk
        refine ⟨hstep _ hc1, ?_, fun k hk => hstep _ (hm1 _ hk)⟩
        intro pk hpk
        cases hpk
    | some pk =>
      rw [hpar] at h
      dsimp only [] at h
      cases hmid : (if !pk.isEmpty then ensure_category ov cats1 pk
                    else some cats1) with
      | none =>
        rw [hmid] at h
        cases h
      | some cats2 =>
        rw [hmid] at h
        dsimp only [] at h
        have hstep2 : ∀ k, containsKey cats1 k = true →
            containsKey cats2 k = true := by
          intro k hk
          split at hmid
          · exact ensure_mono hmid hk
          · obtain rfl := Option.some.inj hmid
            exact hk
        have hcpk2 : pk ≠ [] → containsKey cats2 pk = true := by
          intro hpkne
          rw [if_pos (by rw [isEmpty_false_of_ne hpkne]; rfl)] at hmid
          exact ensure_contains hmid
        cases h3 : (if !child.isEmpty then ensure_category ov cats2 child
                    else some cats2) with
        | none =>
          rw [h3] at h
          cases h
        | some cats3 =>
          rw [h3] at h
          dsimp only [] at h
          have hstep3 : ∀ k, containsKey cats2 k = true →
              containsKey cats3 k = true := by
            intro k hk
            split at h3
            · exact ensure_mono h3 hk
            · obtain rfl := Option.some.inj h3
              exact hk
          have h4 := Option.some.inj h
          have hstep4 : ∀ k, containsKey cats3 k = true →
              containsKey cats4 k = true := by
            intro k hk
            rw [← h4]
            split
            · rw [containsKey_linkStep]
              exact hk
            · exact hk
          refine ⟨hstep4 _ (hstep3 _ (hstep2 _ hc1)), ?_,
            fun k hk => hstep4 _ (hstep3 _ (hstep2 _ (hm1 _ hk)))⟩
          intro pk₂ hpk₂ hpk₂ne
          obtain rfl := Option.some.inj hpk₂
          exact hstep4 _ (hstep3 _ (hcpk2 hpk₂ne))

/-- Preservation through the fuelled walk. -/
theorem walkFuel_preserve {ov : Overrides} (P : CatMap → Prop)
    (hens : ∀ m k m', P m → ensure_category ov m k = some m' → P m')
    (hlink : ∀ (m : CatMap) (child pk : Str) (cc pc : Category), P m →
      lookupKey m child = some cc → lookupKey m pk = some pc →
      get_parent_category_id child = some pk → P (linkStep m child pk)) :
    ∀ (fuel : Nat) (cats : CatMap) (child : Str) (cats' : CatMap),
      P cats → walkFuel ov fuel cats child = some cats' → P cats' := by
  intro fuel
  induction fuel with
  | zero =>
    intro cats child cats' hP h
    unfold walkFuel at h
    by_cases hce : child.isEmpty = true
    · rw [if_pos hce] at h
      obtain rfl := Option.some.inj h
      exact hP
    · rw [if_neg hce] at h
      cases hit : walk_iteration ov cats child with
      | none =>
        rw [hit] at h
        cases h
      | some cats4 =>
        rw [hit] at h
        cases hpar : get_parent_category_id child with
        | none =>
          rw [hpar] at h
          obtain rfl := Option.some.inj h
          exact walk_iteration_preserve P hens hlink hP hit
        | some pk =>
          rw [hpar] at h
          exact Option.noConfusion h
  | succ f ih =>
    intro cats child cats' hP h
    unfold walkFuel at h
    by_cases hce : child.isEmpty = true
    · rw [if_pos hce] at h
      obtain rfl := Option.some.inj h
      exact hP
    · rw [if_neg hce] at h
      cases hit : walk_iteration ov cats child with
      | none =>
        rw [hit] at h
        cases h
      | some cats4 =>
        rw [hit] at h
        cases hpar : get_parent_category_id child with
        | none =>
          rw [hpar] at h
          obtain rfl := Option.some.inj h
          exact walk_iteration_preserve P hens hlink hP hit
        | some pk =>
          rw [hpar] at h
          exact ih cats4 pk cats'
            (walk_iteration_preserve P hens hlink hP hit) h

theorem walkFuel_mono (ov : Overrides) (fuel : Nat) (cats : CatMap)
    (child : Str) (cats' : CatMap) (k : Str)
    (h : walkFuel ov fuel cats child = some cats')
    (hk : containsKey cats k = true) : containsKey cats' k = true :=
  walkFuel_preserve (fun m => containsKey m k = true)
    (fun _ _ _ hm he => ensure_mono he hm)
    (fun m c p _ _ hm _ _ _ => by
      show containsKey (linkStep m c p) k = true
      rw [containsKey_linkStep]
      exact hm)
    fuel cats child cats' hk h

theorem catInv_walkFuel {ov : Overrides} (fuel : Nat) (cats : CatMap)
    (child : Str) (cats' : CatMap) (hinv : CatInv cats)
    (h : walkFuel ov fuel cats child = some cats') : CatInv cats' :=
  walkFuel_preserve CatInv (fun _ _ _ hm he => catInv_ensure hm he)
    (fun _ _ _ _ _ hm hc hp hpp => catInv_linkStep hm hc hp hpp)
    fuel cats child cats' hinv h

/-- Running the walk with fuel at least the number of parts of the start
key leaves the start key in the map and every proper canonical ancestor
prefix of it. -/
theorem walkFuel_chain {ov : Overrides} :
    ∀ (fuel : Nat) (cats : CatMap) (child : Str) (cats' : CatMap),
      (get_category_parts child).length ≤ fuel →
      walkFuel ov fuel cats child = some cats' →
      (child ≠ [] → containsKey cats' child = true) ∧
      (∀ i, 1 ≤ i → i < (get_category_parts child).length →
        containsKey cats'
          (joinWith sepJoin ((get_category_parts child).take i)) = true) := by
  intro fuel
  induction fuel with
  | zero =>
    intro cats child cats' hfuel h
    unfold walkFuel at h
    by_cases hce : child.isEmpty = true
    · rw [if_pos hce] at h
      obtain rfl := Option.some.inj h
      refine ⟨fun hne => absurd (eq_nil_of_isEmpty hce) hne, ?_⟩
      intro i h1 h2
      rw [eq_nil_of_isEmpty hce, parts_nil_eq, List.length_nil] at h2
      omega
    · rw [if_neg hce] at h
      cases hit : walk_iteration ov cats child with
      | none =>
        rw [hit] at h
        cases h
      | some cats4 =>
        rw [hit] at h
        cases hpar : get_parent_category_id child with
        | none =>
          rw [hpar] at h
          obtain rfl := Option.some.inj h
          refine ⟨fun _ => (walk_iteration_facts hit).1, ?_⟩
          intro i h1 h2
          have := parent_none_parts_le hpar
          omega
        | some pk =>
          rw [hpar] at h
          exact absurd hfuel (by have := (parts_parent hpar).2; omega)
  | succ f ih =>
    intro cats child cats' hfuel h
    unfold walkFuel at h
    by_cases hce : child.isEmpty = true
    · rw [if_pos hce] at h
      obtain rfl := Option.some.inj h
      refine ⟨fun hne => absurd (eq_nil_of_isEmpty hce) hne, ?_⟩
      intro i h1 h2
      rw [eq_nil_of_isEmpty hce, parts_nil_eq, List.length_nil] at h2
      omega
    · rw [if_neg hce] at h
      cases hit : walk_iteration ov cats child with
      | none =>
        rw [hit] at h
        cases h
      | some cats4 =>
        rw [hit] at h
        cases hpar : get_parent_category_id child with
        | none =>
          rw [hpar] at h
          obtain rfl := Option.some.inj h
          refine ⟨fun _ => (walk_iteration_facts hit).1, ?_⟩
          intro i h1 h2
          have := parent_none_parts_le hpar
          omega
        | some pk =>
          rw [hpar] at h
          have hrec : walkFuel ov f cats4 pk = some cats' := h
          have hL := parent_parts_length hpar
          have hlenpk : (get_category_parts pk).length ≤ f := by omega
          obtain ⟨hpkc, hpre⟩ := ih cats4 pk cats' hlenpk hrec
          have hpkne : pk ≠ [] := parent_ne_nil hpar
          have hmono : ∀ k, containsKey cats4 k = true →
              containsKey cats' k = true :=
            fun k hk => walkFuel_mono ov f cats4 pk cats' k hrec hk
          constructor
          · intro _
            exact hmono child (walk_iteration_facts hit).1
          · intro i h1 h2
            have hdrop : get_category_parts pk =
                (get_category_parts child).dropLast := parent_parts_dropLast hpar
            by_cases hi : i < (get_category_parts child).length - 1
            · have h2' : i < (get_category_parts pk).length := by omega
              have hstep := hpre i h1 h2'
              rw [hdrop] at hstep
              rwa [show (get_category_parts child).dropLast.take i =
                  (get_category_parts child).take i from by
                rw [List.dropLast_eq_take, List.take_take,
                  Nat.min_eq_left (by omega)]] at hstep
            · have hieq : i = (get_category_parts child).length - 1 := by omega
              have hpkeq : pk =
                  joinWith sepJoin ((get_category_parts child).take i) := by
                rw [hieq, parent_eq_join hpar, List.dropLast_eq_take]
              rw [← hpkeq]
              exact hmono pk ((walk_iteration_facts hit).2.1 pk hpar hpkne)

/-- The ancestor walk started by `get_categories` uses exactly enough fuel. -/
theorem walk_chain {ov : Overrides} {cats : CatMap} {child : Str}
    {cats' : CatMap} (h : walk ov cats child = some cats') :
    (child ≠ [] → containsKey cats' child = true) ∧
    (∀ i, 1 ≤ i → i < (get_category_parts child).length →
      containsKey cats'
        (joinWith sepJoin ((get_category_parts child).take i)) = true) :=
  walkFuel_chain _ cats child cats' (le_refl _) h

theorem walk_mono {ov : Overrides} {cats : CatMap} {child : Str}
    {cats' : CatMap} {k : Str} (h : walk ov cats child = some cats')
    (hk : containsKey cats k = true) : containsKey cats' k = true :=
  walkFuel_mono ov _ cats child cats' k h hk

theorem catInv_walk {ov : Overrides} {cats : CatMap} {child : Str}
    {cats' : CatMap} (hinv : CatInv cats)
    (h : walk ov cats child = some cats') : CatInv cats' :=
  catInv_walkFuel _ cats child cats' hinv h

/-! Fold lemmas over the two passes of `get_categories`. -/

theorem foldlM_option_preserve {α : Type} (f : CatMap → α → Option CatMap)
    (P : CatMap → Prop)
    (hf : ∀ s a s', P s → f s a = some s' → P s') :
    ∀ (l : List α) (s s' : CatMap), P s → l.foldlM f s = some s' → P s' := by
  intro l
  induction l with
  | nil =>
    intro s s' hP h
    obtain rfl := Option.some.inj h
    exact hP
  | cons a l ih =>
    intro s s' hP h
    rw [List.foldlM_cons] at h
    cases hfa : f s a with
    | none =>
      rw [hfa] at h
      cases h
    | some s₁ =>
      rw [hfa] at h
      exact ih s₁ s' (hf s a s₁ hP hfa) h

theorem foldlM_option_establish {α : Type} (f : CatMap → α → Option CatMap)
    (Q : α → CatMap → Prop)
    (hstep : ∀ s a s', f s a = some s' → Q a s')
    (hmono : ∀ s a s' b, Q b s → f s a = some s' → Q b s') :
    ∀ (l : List α) (s s' : CatMap), l.foldlM f s = some s' →
      ∀ a ∈ l, Q a s' := by
  intro l
  induction l with
  | nil =>
    intro s s' h a ha
    cases ha
  | cons a l ih =>
    intro s s' h b hb
    rw [List.foldlM_cons] at h
    cases hfa : f s a with
    | none =>
      rw [hfa] at h
      cases h
    | some s₁ =>
      rw [hfa] at h
      rcases List.mem_cons.mp hb with rfl | hbl
      · exact foldlM_option_preserve f (Q b)
          (fun s₂ a₂ s₃ hQ hf2 => hmono s₂ a₂ s₃ b hQ hf2) l s₁ s'
          (hstep s b s₁ hfa) h
      · exact ih s₁ s' h b hbl

/-- Inversion of `get_categories` into its two passes. -/
theorem get_categories_inv {rows : List LinkRow} {crows : List CategoryRow}
    {m : CatMap} (h : get_categories rows crows = some m) :
    ∃ cats1,
      rows.foldlM
        (fun cats row =>
          ensure_category (get_category_overrides crows) cats row.category_id)
        ([] : CatMap) = some cats1 ∧
      rows.foldlM
        (fun cats row =>
          walk (get_category_overrides crows) cats row.category_id)
        cats1 = some m := by
  unfold get_categories at h
  cases h1 : rows.foldlM
      (fun cats row =>
        ensure_category (get_category_overrides crows) cats row.category_id)
      ([] : CatMap) with
  | none =>
    rw [h1] at h
    cases h
  | some cats1 =>
    rw [h1] at h
    exact ⟨cats1, rfl, h⟩

theorem get_categories_catInv {rows : List LinkRow}
    {crows : List CategoryRow} {m : CatMap}
    (h : get_categories rows crows = some m) : CatInv m := by
  obtain ⟨cats1, h1, h2⟩ := get_categories_inv h
  have hc1 : CatInv cats1 :=
    foldlM_option_preserve _ CatInv (fun _ _ _ hs hf => catInv_ensure hs hf)
      rows [] cats1 catInv_nil h1
  exact foldlM_option_preserve _ CatInv (fun _ _ _ hs hf => catInv_walk hs hf)
    rows cats1 m hc1 h2

/-- Bounded parent-chain traversal: `reachesRoot m k n` holds when, within
at most `n` lookups, following `parent` pointers from `k` stays inside the
map and ends at a node whose parent is null. -/
def reachesRoot (m : CatMap) : Str → Nat → Bool
  | _, 0 => false
  | k, n + 1 =>
    match lookupKey m k with
    | none => false
    | some c =>
      match c.parent with
      | none => true
      | some p => reachesRoot m p n

theorem reachesRoot_succ (m : CatMap) (k : Str) (n : Nat) :
    reachesRoot m k (n + 1) =
      match lookupKey m k with
      | none => false
      | some c =>
        match c.parent with
        | none => true
        | some p => reachesRoot m p n := rfl

/-- Under the tree invariants, every node's parent chain reaches a
null-parent node within as many steps as its key has parts. -/
theorem catInv_reachesRoot {m : CatMap} (hinv : CatInv m) :
    ∀ (n : Nat) (k : Str) (c : Category), lookupKey m k = some c →
      (get_category_parts k).length ≤ n → reachesRoot m k n = true := by
  intro n
  induction n with
  | zero =>
    intro k c hl hn
    have h1 := hinv.1 _ _ hl
    have h2 : 0 < (get_category_parts k).length := List.length_pos.mpr h1
    omega
  | succ n ih =>
    intro k c hl hn
    rw [reachesRoot_succ]
    cases hcp : c.parent with
    | none =>
      simp [hl, hcp]
    | some p =>
      rcases hinv.2.1 _ _ hl with hnone | ⟨pk, hpk, hcp₂, pc, hpc, _⟩
      · rw [hcp] at hnone
        cases hnone
      · rw [hcp] at hcp₂
        obtain rfl := Option.some.inj hcp₂
        have hlen := parent_parts_length hpk
        have hrec : reachesRoot m p n = true := ih p pc hpc (by omega)
        simp [hl, hcp, hrec]

/-- C1: after tree construction, every link row's category key is in the
map, its parent chain reaches a null-parent node in at most as many lookups
as the key has parts (hence no cycles), and every proper prefix of its
parts sequence is present as a canonical ancestor key. -/
theorem C1_ancestor_closure :
    ∀ (rows : List LinkRow) (crows : List CategoryRow) (m : CatMap),
      get_categories rows crows = some m →
      ∀ row ∈ rows,
        containsKey m row.category_id = true ∧
        reachesRoot m row.category_id
          (get_category_parts row.category_id).length = true ∧
        (∀ i, 1 ≤ i → i < (get_category_parts row.category_id).length →
          containsKey m
            (joinWith sepJoin
              ((get_category_parts row.category_id).take i)) = true) := by
  intro rows crows m h row hrow
  obtain ⟨cats1, h1, h2⟩ := get_categories_inv h
  have hinv : CatInv m := get_categories_catInv h
  have hcont : containsKey m row.category_id = true := by
    have hq := foldlM_option_establish _
      (fun r mm => containsKey mm r.category_id = true)
      (fun _ _ _ hf => ensure_contains hf)
      (fun _ _ _ _ hQ hf => ensure_mono hf hQ)
      rows [] cats1 h1 row hrow
    exact foldlM_option_preserve _
      (fun mm => containsKey mm row.category_id = true)
      (fun _ _ _ hs hf => walk_mono hf hs)
      rows cats1 m hq h2
  refine ⟨hcont, ?_, ?_⟩
  · obtain ⟨c, hc⟩ := (containsKey_iff_lookup m row.category_id).mp hcont
    exact catInv_reachesRoot hinv _ _ _ hc (le_refl _)
  · exact foldlM_option_establish _
      (fun r mm => ∀ i, 1 ≤ i → i < (get_category_parts r.category_id).length →
        containsKey mm
          (joinWith sepJoin ((get_category_parts r.category_id).take i)) = true)
      (fun _ _ _ hf => by
        intro i h1i h2i
        exact (walk_chain hf).2 i h1i h2i)
      (fun _ _ _ _ hQ hf => by
        intro i h1i h2i
        exact walk_mono hf (hQ i h1i h2i))
      rows cats1 m h2 row hrow

def rowsC1 : List LinkRow := [mkRow ("a > b > c".toList)]

def mC1 : CatMap := (get_categories rowsC1 []).getD []

/-- C1 witness: the single link `"a > b > c"` yields a map containing the
key itself and the canonical ancestors `"a"` and `"a > b"`, with a parent
chain that reaches the root in at most three lookups. -/
theorem C1_ancestor_closure_witness :
    containsKey mC1 ("a > b > c".toList) = true ∧
    reachesRoot mC1 ("a > b > c".toList)
      (get_category_parts ("a > b > c".toList)).length = true ∧
    (∀ i, 1 ≤ i → i < (get_category_parts ("a > b > c".toList)).length →
      containsKey mC1
        (joinWith sepJoin
          ((get_category_parts ("a > b > c".toList)).take i)) = true) :=
  C1_ancestor_closure rowsC1 [] mC1 (by decide) (mkRow ("a > b > c".toList))
    (by decide)

/-- C2: in the final category map no node lists itself as a child, children
lists are duplicate-free and symmetric with parent pointers
(`c ∈ children(p) ↔ parent(c) = p`), and the parent-assignment operation
used by the builder never overwrites an already-set parent. -/
theorem C2_children_parent_symmetry :
    (∀ (rows : List LinkRow) (crows : List CategoryRow) (m : CatMap),
      get_categories rows crows = some m →
      ∀ p pc, lookupKey m p = some pc →
        p ∉ pc.children ∧ pc.children.Nodup ∧
        (∀ c, c ∈ pc.children ↔
          ∃ cc, lookupKey m c = some cc ∧ cc.parent = some p)) ∧
    (∀ (m' : CatMap) (k q : Str) (c : Category),
      lookupKey m' k = some c → c.parent ≠ none →
      ∀ k', lookupKey (set_parent_if_none m' k q) k' = lookupKey m' k') := by
  constructor
  · intro rows crows m h p pc hpc
    have hinv : CatInv m := get_categories_catInv h
    refine ⟨?_, hinv.2.2.2 _ _ hpc, ?_⟩
    · intro hmem
      obtain ⟨hps, _⟩ := hinv.2.2.1 _ _ hpc p hmem
      exact parent_ne_self p hps
    · intro c
      constructor
      · intro hmem
        obtain ⟨_, cc, hcc, hccp⟩ := hinv.2.2.1 _ _ hpc c hmem
        exact ⟨cc, hcc, hccp⟩
      · intro ⟨cc, hcc, hccp⟩
        rcases hinv.2.1 _ _ hcc with hnone | ⟨pk, hpk, hcp₂, pc₂, hpc₂, hmem₂⟩
        · rw [hccp] at hnone
          cases hnone
        · rw [hccp] at hcp₂
          obtain rfl := Option.some.inj hcp₂
          obtain rfl : pc₂ = pc := Option.some.inj (hpc₂.symm.trans hpc)
          exact hmem₂
  · intro m' k q c hl hp k'
    by_cases hk : k' = k
    · subst hk
      unfold set_parent_if_none
      rw [lookupKey_update_self, hl]
      cases hcp : c.parent with
      | none => exact absurd hcp hp
      | some r =>
        simp only [Option.map_some']
        rw [hcp]
    · unfold set_parent_if_none
      rw [lookupKey_update_other hk]

def rowsC2 : List LinkRow := [mkRow ("a > b".toList)]

def mC2 : CatMap := (get_categories rowsC2 []).getD []

def pcC2 : Category :=
  (lookupKey mC2 ("a".toList)).getD ⟨[], [], none, none, [], [], []⟩

/-- C2 witness: in the map built from the single link `"a > b"`, the root
node `"a"` satisfies the no-self-loop, no-duplicates and symmetry
properties. -/
theorem C2_children_parent_witness :
    ("a".toList : Str) ∉ pcC2.children ∧ pcC2.children.Nodup ∧
    (∀ c, c ∈ pcC2.children ↔
      ∃ cc, lookupKey mC2 c = some cc ∧ cc.parent = some ("a".toList)) :=
  C2_children_parent_symmetry.1 rowsC2 [] mC2 (by decide) ("a".toList) pcC2
    (by decide)
